import Mathlib

/-!
Verification of the title-detection and consolidation pipeline of the
silly-dolphin-dive repository (frontend/src/services/movieDatabase.ts,
aiVisionService.ts and the tesseract-based OCR service).

Strings are modelled as lists of characters (JS strings of the relevant
inputs are ASCII, where the Lean Char.toLower / Char.isAlpha / Char.isDigit
agree with the JavaScript toLowerCase / [a-zA-Z] / [0-9]).  JS floating
point arithmetic on the small confidence values is modelled with rationals.
-/

namespace SillyDolphin

/-- JS regex word character class \w = [A-Za-z0-9_]. -/
def isWordChar (c : Char) : Bool :=
  c.isAlpha || c.isDigit || c = '_'

/-- JS whitespace class \s restricted to the ASCII whitespace characters. -/
def isWsChar (c : Char) : Bool :=
  c = ' ' || c = '\t' || c = '\n' || c = '\r' || c = '\x0b' || c = '\x0c'

/-- JS String.prototype.toLowerCase on ASCII strings. -/
def lowerStr (s : List Char) : List Char :=
  s.map Char.toLower

/-! ## Specification-side Levenshtein distance

The classic recursive formulation of edit distance with unit costs for
insertion, deletion and substitution, consuming the strings from the front.
The imperative DP of the source is proved equal to it further below, and
this recursion is itself proved to compute the minimum length of an edit
script (see EditChain). -/

/-- Classic Levenshtein distance, unit costs, recursion on heads. -/
def lev : List Char → List Char → Nat
  | [], b => b.length
  | a, [] => a.length
  | x :: a, y :: b =>
      min (lev a (y :: b) + 1)
        (min (lev (x :: a) b + 1) (lev a b + (if x = y then 0 else 1)))
termination_by a b => a.length + b.length
decreasing_by all_goals simp only [List.length_cons]; omega

/-! ## Edit scripts

A single edit is the insertion, deletion or substitution of one character
at an arbitrary position (positions other than the head are reached through
the congruence constructor).  EditChain a b n states that b is reachable
from a by n single edits.  lev is proved to be the least chain length, which
is the textbook notion of Levenshtein distance. -/

/-- One single-character edit (insert / delete / substitute, anywhere). -/
inductive OneEdit : List Char → List Char → Prop where
  | insert (c : Char) (a : List Char) : OneEdit a (c :: a)
  | delete (c : Char) (a : List Char) : OneEdit (c :: a) a
  | subst (c d : Char) (a : List Char) : c ≠ d → OneEdit (c :: a) (d :: a)
  | cons (x : Char) {a b : List Char} : OneEdit a b → OneEdit (x :: a) (x :: b)

/-- b is obtained from a by exactly n single-character edits. -/
inductive EditChain : List Char → List Char → Nat → Prop where
  | refl (a : List Char) : EditChain a a 0
  | step {a b c : List Char} {n : Nat} :
      OneEdit a b → EditChain b c n → EditChain a c (n + 1)

/-! ## The imperative DP of the source

movieDatabase.ts builds a matrix with matrix[i] = [i], matrix[0][j] = j and

  matrix[i][j] = if str2[i-1] == str1[j-1] then matrix[i-1][j-1]
                 else min(matrix[i-1][j-1]+1, matrix[i][j-1]+1, matrix[i-1][j]+1)

returning matrix[str2.length][str1.length].  Row i only depends on row i-1,
so the loop nest is embedded as a fold producing one row after another:
buildRow computes the entries j = 1 .. str1.length of row i from the char
str2[i-1], the previous row starting at entry j-1, and the entry to the
left (initially matrix[i][0] = i). -/

/-- Inner loop of the DP: entries 1..len1 of one row.  The second list is
the previous row from index j-1 on, the Nat argument the entry at (i, j-1).
(The rows the source constructs always have str1.length + 1 entries, so the
mismatched-length branch is never taken.) -/
def buildRow (c : Char) : List Char → List Nat → Nat → List Nat
  | [], _, _ => []
  | _ :: _, [], _ => []
  | x :: xs, d :: rest, left =>
      (if c = x then d else min (min (d + 1) (left + 1)) (rest.headD 0 + 1)) ::
        buildRow c xs rest
          (if c = x then d else min (min (d + 1) (left + 1)) (rest.headD 0 + 1))

/-- Outer loop step: from (row i-1, i-1) to (row i, i). -/
def levStep (str1 : List Char) (acc : List Nat × Nat) (c : Char) :
    List Nat × Nat :=
  ((acc.2 + 1) :: buildRow c str1 acc.1 (acc.2 + 1), acc.2 + 1)

/-- The levenshteinDistance of movieDatabase.ts (identical copies at lines
175-201 and 217-243, and in the OCR service): row-by-row DP over str2,
returning the bottom-right matrix entry. -/
def levenshteinDistance (str1 str2 : List Char) : Nat :=
  ((str2.foldl (levStep str1) (List.range (str1.length + 1), 0)).1).getLastD 0

/-- Matrix entry (i, j) as edit distance of reversed prefixes. -/
def ELev (s1 s2 : List Char) (i j : Nat) : Nat :=
  lev ((s1.take j).reverse) ((s2.take i).reverse)

/-- Row i of the matrix: entries ELev i 0 .. ELev i len1. -/
def rowVals (s1 s2 : List Char) (i : Nat) : List Nat :=
  (List.range' 0 (s1.length + 1)).map (ELev s1 s2 i)

/-! ## Similarity and deduplication

calculateSimilarity (movieDatabase.ts, identical copies at lines 164-172 and
206-214) and removeDuplicateTitles (lines 282-301).  The JS doubles involved
are small exact fractions, modelled as rationals; the literal 0.85 is 17/20. -/

/-- calculateSimilarity: 1 - editDistance / max(len), computed as
(longer.length - dist) / longer.length on the longer/shorter pair. -/
def calculateSimilarity (str1 str2 : List Char) : ℚ :=
  let longer := if str2.length < str1.length then str1 else str2
  let shorter := if str2.length < str1.length then str2 else str1
  if longer.length = 0 then 1
  else ((longer.length : ℚ) - levenshteinDistance longer shorter) / longer.length

/-- The duplicate test of removeDuplicateTitles:
calculateSimilarity(title.toLowerCase(), existing.toLowerCase()) > 0.85. -/
def isDupOf (title existing : List Char) : Bool :=
  decide ((17:ℚ)/20 < calculateSimilarity (lowerStr title) (lowerStr existing))

/-- removeDuplicateTitles: greedy pass keeping a title unless it is a
near-duplicate of an already kept one. -/
def removeDuplicateTitles (titles : List (List Char)) : List (List Char) :=
  titles.foldl
    (fun unique title =>
      if unique.any (fun existing => isDupOf title existing) then unique
      else unique ++ [title])
    []

/-- The same greedy pass, additionally counting how many input detections
were merged into each kept representative (the first kept title whose
similarity with the detection exceeds the threshold absorbs it — exactly
the break in the source loop).  This is the supportCount of the specification
CandidateCluster, derived from the dedup loop. -/
def bumpCluster : List (List Char × Nat) → List Char → List (List Char × Nat)
  | [], t => [(t, 1)]
  | e :: rest, t =>
      if isDupOf t e.1 then (e.1, e.2 + 1) :: rest
      else e :: bumpCluster rest t

def dedupClusters (titles : List (List Char)) : List (List Char × Nat) :=
  titles.foldl bumpCluster []

/-! ## Normalizers

cleanDetectedText (movieDatabase.ts 246-254) and cleanOCRText (OCR service).
The global case-insensitive regex replacements \b(tok1|tok2|...)\b by the empty string are
embedded by a scanner over the original character list: at each position
that sits on a word boundary the alternatives are tried in source order, a
match must end on a word boundary (an alternative whose text matches but
whose trailing boundary fails is skipped and the next alternative is tried,
as the JS engine backtracks), and scanning resumes right after a match —
matching always looks at the original string, exactly like
String.prototype.replace with a global regex. -/

/-- The apostrophe character (0x27). -/
def apos : Char := Char.ofNat 39

/-- Allow-list of the character-stripping regex of stripChars: inside a
character class the apostrophe-hyphen-dot part denotes the range 0x27-0x2E, i.e. the characters
apostrophe ( ) * + , - . (so * and + survive the filter too). -/
def isAllowedChar (c : Char) : Bool :=
  isWordChar c || isWsChar c || c = '&' || c = ':' ||
    (apos ≤ c && c ≤ '.') || c = ',' || c = '(' || c = ')'

/-- The character-stripping replace: only allow-listed characters survive. -/
def stripChars (s : List Char) : List Char :=
  s.filter isAllowedChar

/-- .replace(/\s+/g, ' '): every maximal whitespace run becomes one space.
The flag records whether the previous character was whitespace. -/
def collapseWsAux : Bool → List Char → List Char
  | _, [] => []
  | inRun, c :: rest =>
      if isWsChar c then
        if inRun then collapseWsAux true rest
        else ' ' :: collapseWsAux true rest
      else c :: collapseWsAux false rest

def collapseWs (s : List Char) : List Char :=
  collapseWsAux false s

/-- .replace(/\n+/g, ' '). -/
def collapseNlAux : Bool → List Char → List Char
  | _, [] => []
  | inRun, c :: rest =>
      if c = '\n' then
        if inRun then collapseNlAux true rest
        else ' ' :: collapseNlAux true rest
      else c :: collapseNlAux false rest

def collapseNl (s : List Char) : List Char :=
  collapseNlAux false s

/-- String.prototype.trim. -/
def trimWs (s : List Char) : List Char :=
  ((s.dropWhile isWsChar).reverse.dropWhile isWsChar).reverse

/-- One character map .replace(/[c]/g, d). -/
def replaceChar (a b : Char) (s : List Char) : List Char :=
  s.map (fun c => if c = a then b else c)

/-- Case-insensitive comparison of one text char with one pattern char
(the /i flag; ASCII). -/
def ciEqChar (c p : Char) : Bool :=
  c.toLower = p.toLower

/-- Match a literal pattern case-insensitively; returns the rest of the
input on success. -/
def ciEat : List Char → List Char → Option (List Char)
  | [], s => some s
  | _ :: _, [] => none
  | p :: ps, c :: cs => if ciEqChar c p then ciEat ps cs else none

/-- The trailing \b after a token: every token ends in a word character,
so the boundary holds iff the input ends or continues with a non-word char. -/
def wordBoundaryAfter : List Char → Bool
  | [] => true
  | c :: _ => !isWordChar c

/-- Alternative consisting of a single literal (plus trailing \b). -/
def matchLit (pat : List Char) (s : List Char) : Option (List Char) :=
  match ciEat pat s with
  | some rest => if wordBoundaryAfter rest then some rest else none
  | none => none

/-- Alternative PRE-?POST (BLU-?RAY, PG-?13, NC-17).  The -? is greedy;
when the hyphen is present but POST fails, the backtracked branch would
have to match the leading POST letter/digit against the hyphen, which is
impossible, so consuming the hyphen when present is exact. -/
def matchOptHyphen (pre post : List Char) (s : List Char) : Option (List Char) :=
  match ciEat pre s with
  | none => none
  | some rest =>
      match rest with
      | '-' :: rest2 =>
          match ciEat post rest2 with
          | some rest3 => if wordBoundaryAfter rest3 then some rest3 else none
          | none => none
      | _ =>
          match ciEat post rest with
          | some rest3 => if wordBoundaryAfter rest3 then some rest3 else none
          | none => none

/-- Alternative ULTRA\s*HD.  \s* is greedy and HD starts with a non-space
character, so consuming the maximal whitespace run is exact. -/
def matchUltraHD (s : List Char) : Option (List Char) :=
  match ciEat ("ULTRA".toList) s with
  | none => none
  | some rest =>
      match ciEat ("HD".toList) (rest.dropWhile isWsChar) with
      | some rest3 => if wordBoundaryAfter rest3 then some rest3 else none
      | none => none

/-- Try the alternatives in source order (JS alternation). -/
def tryAlts : List (List Char → Option (List Char)) → List Char → Option (List Char)
  | [], _ => none
  | m :: ms, s =>
      match m s with
      | some r => some r
      | none => tryAlts ms s

/-- Global replacement of \b(alternatives)\b by the empty string.  Every
alternative begins and ends with a word character, so a match can only
start where the previous character is not a word character, and after a
removed match the scan resumes with previous-is-word-character true.
The fuel is the input length; each step consumes at least one character. -/
def scrubAux (alts : List (List Char → Option (List Char))) :
    Nat → Bool → List Char → List Char
  | _, _, [] => []
  | 0, _, s => s
  | fuel + 1, prevWord, c :: rest =>
      if prevWord then c :: scrubAux alts fuel (isWordChar c) rest
      else
        match tryAlts alts (c :: rest) with
        | some rest2 => scrubAux alts fuel true rest2
        | none => c :: scrubAux alts fuel (isWordChar c) rest

def scrub (alts : List (List Char → Option (List Char))) (s : List Char) :
    List Char :=
  scrubAux alts (s.length + 1) false s

/-- \b(DVD|BLU-?RAY|4K|ULTRA\s*HD|HD|DIGITAL|COPY|DISC)\b/gi. -/
def mediaTokens : List (List Char → Option (List Char)) :=
  [matchLit ("DVD".toList), matchOptHyphen ("BLU".toList) ("RAY".toList),
   matchLit ("4K".toList), matchUltraHD, matchLit ("HD".toList),
   matchLit ("DIGITAL".toList), matchLit ("COPY".toList),
   matchLit ("DISC".toList)]

/-- \b(PG-?13|PG|R|NC-?17|G|RATED|UNRATED)\b/gi. -/
def ratingTokens : List (List Char → Option (List Char)) :=
  [matchOptHyphen ("PG".toList) ("13".toList), matchLit ("PG".toList),
   matchLit ("R".toList), matchOptHyphen ("NC".toList) ("17".toList),
   matchLit ("G".toList), matchLit ("RATED".toList),
   matchLit ("UNRATED".toList)]

/-- cleanDetectedText of movieDatabase.ts (lines 246-254): trim, collapse
whitespace, strip characters, remove media-format tokens, remove rating
tokens, trim. -/
def cleanDetectedText (text : List Char) : List Char :=
  trimWs (scrub ratingTokens (scrub mediaTokens
    (stripChars (collapseWs (trimWs text)))))

/-! ## cleanOCRText of the multi-pass OCR service (part_005, lines 314-347) -/

/-- \b(DVD|...|DISC|COLLECTION|TRILOGY|SERIES)\b/gi. -/
def mediaTokensOCR : List (List Char → Option (List Char)) :=
  mediaTokens ++
    [matchLit ("COLLECTION".toList), matchLit ("TRILOGY".toList),
     matchLit ("SERIES".toList)]

/-- \b(WARNER|UNIVERSAL|PARAMOUNT|SONY|DISNEY|FOX|MGM|LIONSGATE)\b/gi. -/
def studioTokens : List (List Char → Option (List Char)) :=
  [matchLit ("WARNER".toList), matchLit ("UNIVERSAL".toList),
   matchLit ("PARAMOUNT".toList), matchLit ("SONY".toList),
   matchLit ("DISNEY".toList), matchLit ("FOX".toList),
   matchLit ("MGM".toList), matchLit ("LIONSGATE".toList)]

/-- \b(BROS|PICTURES|ENTERTAINMENT|STUDIOS|HOME|VIDEO)\b/gi. -/
def distributorTokens : List (List Char → Option (List Char)) :=
  [matchLit ("BROS".toList), matchLit ("PICTURES".toList),
   matchLit ("ENTERTAINMENT".toList), matchLit ("STUDIOS".toList),
   matchLit ("HOME".toList), matchLit ("VIDEO".toList)]

/-- The edition tokens SPECIAL, EDITION, EXTENDED, DIRECTOR-apostrophe-S, CUT, VERSION. -/
def editionTokens : List (List Char → Option (List Char)) :=
  [matchLit ("SPECIAL".toList), matchLit ("EDITION".toList),
   matchLit ("EXTENDED".toList),
   matchLit ("DIRECTOR".toList ++ [apos, 'S']),
   matchLit ("CUT".toList), matchLit ("VERSION".toList)]

/-- One branch of the anchored article regex ^(THE\s+|A\s+|AN\s+)/i:
the literal followed by at least one whitespace character (the greedy \s+
swallows the whole run). -/
def tryArticle (pat : List Char) (s : List Char) : Option (List Char) :=
  match ciEat pat s with
  | some (c :: rest) =>
      if isWsChar c then some ((c :: rest).dropWhile isWsChar) else none
  | _ => none

/-- The anchored leading-article replace THE/A/AN: alternatives in source order,
anchored at the start, first match only. -/
def stripLeadingArticle (s : List Char) : List Char :=
  match tryArticle ("THE".toList) s with
  | some r => r
  | none =>
      match tryArticle ("A".toList) s with
      | some r => r
      | none =>
          match tryArticle ("AN".toList) s with
          | some r => r
          | none => s

/-- Replace the first \b-anchored match found by m (which returns the
replacement text and the rest of the input); non-global JS replace. -/
def replaceFirstAux (m : List Char → Option (List Char × List Char)) :
    Bool → List Char → List Char
  | _, [] => []
  | prevWord, c :: rest =>
      if prevWord then c :: replaceFirstAux m (isWordChar c) rest
      else
        match m (c :: rest) with
        | some (rep, rest2) => rep ++ rest2
        | none => c :: replaceFirstAux m (isWordChar c) rest

def replaceFirst (m : List Char → Option (List Char × List Char))
    (s : List Char) : List Char :=
  replaceFirstAux m false s

/-- A sequence of case-insensitive literals separated by \s+ and ended by
\b.  Greedy \s+ is exact because the following literal starts with a
non-space character. -/
def matchSeqWs : List (List Char) → List Char → Option (List Char)
  | [], s => if wordBoundaryAfter s then some s else none
  | p :: ps, s =>
      match ciEat p s with
      | none => none
      | some r =>
          match ps with
          | [] => if wordBoundaryAfter r then some r else none
          | _ :: _ =>
              match r with
              | c :: _ =>
                  if isWsChar c then matchSeqWs ps (r.dropWhile isWsChar)
                  else none
              | [] => none

/-- /\bTHE\s+(\w+)\s+NETWORK\b/i with the capture-preserving replacement.
Greedy \w+ and \s+ are exact because the character classes are disjoint
and the following pattern piece starts outside the class. -/
def matchTheNetwork (s : List Char) : Option (List Char × List Char) :=
  match ciEat ("THE".toList) s with
  | none => none
  | some r1 =>
      match r1 with
      | c1 :: _ =>
          if isWsChar c1 then
            let r2 := r1.dropWhile isWsChar
            let w := r2.takeWhile isWordChar
            if w.isEmpty then none
            else
              let r3 := r2.dropWhile isWordChar
              match r3 with
              | c3 :: _ =>
                  if isWsChar c3 then
                    match ciEat ("NETWORK".toList) (r3.dropWhile isWsChar) with
                    | none => none
                    | some r5 =>
                        if wordBoundaryAfter r5 then
                          some ("THE ".toList ++ w ++ " NETWORK".toList, r5)
                        else none
                  else none
              | [] => none
          else none
      | [] => none

/-- The NO TIME TO DIE pattern fix, replaced by its canonical spacing. -/
def matchNoTimeToDie (s : List Char) : Option (List Char × List Char) :=
  (matchSeqWs ["NO".toList, "TIME".toList, "TO".toList, "DIE".toList] s).map
    (fun r => ("NO TIME TO DIE".toList, r))

/-- The OCEAN-apostrophe-S ELEVEN pattern fix (optional apostrophe).  The
optional apostrophe is consumed when present (S cannot match an
apostrophe, so this is exact). -/
def matchOceansEleven (s : List Char) : Option (List Char × List Char) :=
  match ciEat ("OCEAN".toList) s with
  | none => none
  | some r1 =>
      let r2 := match r1 with
        | c :: rest => if c = apos then rest else r1
        | [] => r1
      match matchSeqWs ["S".toList, "ELEVEN".toList] r2 with
      | some r => some ("OCEAN".toList ++ [apos] ++ "S ELEVEN".toList, r)
      | none => none

/-- /\bBOURNE\s+COMPLETE\s+COLLECTION\b/i replaced by
THE BOURNE COMPLETE COLLECTION. -/
def matchBourne (s : List Char) : Option (List Char × List Char) :=
  (matchSeqWs ["BOURNE".toList, "COMPLETE".toList, "COLLECTION".toList] s).map
    (fun r => ("THE BOURNE COMPLETE COLLECTION".toList, r))

/-- cleanOCRText of the multi-pass OCR service (part_005, lines 314-347):
token removal passes, character cleanup with OCR confusion substitutions,
leading-article strip and the four title pattern fixes. -/
def cleanOCRText (rawText : List Char) : List Char :=
  let s1 := scrub mediaTokensOCR rawText
  let s2 := scrub studioTokens s1
  let s3 := scrub distributorTokens s2
  let s4 := scrub ratingTokens s3
  let s5 := scrub editionTokens s4
  let s6 := trimWs (replaceChar '6' 'G' (replaceChar '1' 'I'
    (replaceChar '8' 'B' (replaceChar '5' 'S' (replaceChar '0' 'O'
      (replaceChar '|' 'I' (collapseNl (collapseWs (stripChars s5)))))))))
  let s7 := stripLeadingArticle s6
  let s8 := replaceFirst matchTheNetwork s7
  let s9 := replaceFirst matchNoTimeToDie s8
  let s10 := replaceFirst matchOceansEleven s9
  let s11 := replaceFirst matchBourne s10
  trimWs s11

/-! ## Validator (isValidMovieTitle, movieDatabase.ts 257-279) -/

/-- /^\d+$/. -/
def jsAllDigits (l : List Char) : Bool :=
  !l.isEmpty && l.all Char.isDigit

/-- /^[A-Z]$/. -/
def jsSingleUpper (l : List Char) : Bool :=
  match l with
  | [c] => 'A' ≤ c && c ≤ 'Z'
  | _ => false

/-- The closed stop-word set of /^(AND|OR|OF|IN|ON|AT|TO|FOR|WITH|BY)$/i. -/
def stopWords : List (List Char) :=
  ["and".toList, "or".toList, "of".toList, "in".toList, "on".toList,
   "at".toList, "to".toList, "for".toList, "with".toList, "by".toList]

def jsStopWord (l : List Char) : Bool :=
  stopWords.contains (lowerStr l)

/-- /[a-zA-Z]/.test. -/
def jsHasAlpha (l : List Char) : Bool :=
  l.any Char.isAlpha

/-- isValidMovieTitle: cleans its argument and applies the reject rules in
source order. -/
def isValidMovieTitle (text : List Char) : Bool :=
  let cleaned := cleanDetectedText text
  if cleaned.length < 2 then false
  else if 120 < cleaned.length then false
  else if jsAllDigits cleaned then false
  else if jsSingleUpper cleaned then false
  else if jsStopWord cleaned then false
  else if !jsHasAlpha cleaned then false
  else true

/-- processOCRText (part_005, 350-353): clean, then validate. -/
def processOCRText (ocrText : List Char) : Option (List Char) :=
  let cleaned := cleanDetectedText ocrText
  if isValidMovieTitle cleaned then some cleaned else none

/-- The duplicate test with the division cleared: for nonempty longer
string, (L - d)/L > 17/20 iff 17 L < 20 (L - d). -/
def isDupOfNat (title existing : List Char) : Bool :=
  let t := lowerStr title
  let e := lowerStr existing
  let longer := if e.length < t.length then t else e
  let shorter := if e.length < t.length then e else t
  if longer.length = 0 then true
  else
    17 * longer.length < 20 * (longer.length - levenshteinDistance longer shorter)

/-- removeDuplicateTitles with the Nat-level test (used to run the
deduplicator on concrete inputs inside the kernel). -/
def removeDuplicateTitlesNat (titles : List (List Char)) : List (List Char) :=
  titles.foldl
    (fun unique title =>
      if unique.any (fun existing => isDupOfNat title existing) then unique
      else unique ++ [title])
    []

def bumpClusterNat : List (List Char × Nat) → List Char → List (List Char × Nat)
  | [], t => [(t, 1)]
  | e :: rest, t =>
      if isDupOfNat t e.1 then (e.1, e.2 + 1) :: rest
      else e :: bumpClusterNat rest t

def dedupClustersNat (titles : List (List Char)) : List (List Char × Nat) :=
  titles.foldl bumpClusterNat []

/-! ## Candidate scoring of the multi-pass OCR service (part_005, 411-456)

The valid titles are deduplicated, each unique title becomes a candidate
with confidence 0.8 and count 1 (a repeated exact title would bump the
count and add 0.1 up to 0.95), candidates are sorted by
confidence * count descending (Array.prototype.sort with the comparator
(b.confidence * b.count) - (a.confidence * a.count) is a stable descending
sort by that key, modelled by a stable insertion sort), and the first 15
candidates with confidence > 0.5 are emitted with confidence
min(0.95, confidence).  The metadata enrichment attached to each emitted
title is an external lookup (movieMetadataService) and is not modelled. -/

structure DetectedTitle where
  spineId : String
  title : List Char
  confidence : ℚ

/-- The titleCandidates map: insertion-ordered association list, exactly a
JS Map.  A title already present bumps count and confidence, a new title
is appended with confidence 0.8 and count 1. -/
def buildCandidates (uniqueTitles : List (List Char)) :
    List (List Char × ℚ × Nat) :=
  uniqueTitles.foldl
    (fun cands title =>
      if cands.any (fun c => c.1 == title) then
        cands.map (fun c =>
          if c.1 == title then (c.1, min ((19:ℚ)/20) (c.2.1 + 1/10), c.2.2 + 1)
          else c)
      else cands ++ [(title, (4:ℚ)/5, 1)])
    []

/-- Stable insertion into a descending-by-key list: an element moves past
exactly the elements with strictly smaller key. -/
def insertKeyDesc {α : Type} (key : α → ℚ) (x : α) : List α → List α
  | [] => [x]
  | y :: ys => if key x ≤ key y then y :: insertKeyDesc key x ys else x :: y :: ys

/-- Stable sort, descending by key. -/
def sortByKeyDesc {α : Type} (key : α → ℚ) (l : List α) : List α :=
  l.foldl (fun acc x => insertKeyDesc key x acc) []

/-- The sort key (b.confidence * b.count) - (a.confidence * a.count)
compares confidence * count. -/
def candidateKey (c : List Char × ℚ × Nat) : ℚ :=
  c.2.1 * c.2.2

/-- Pair every element with its position. -/
def withIdx {α : Type} : Nat → List α → List (Nat × α)
  | _, [] => []
  | i, x :: xs => (i, x) :: withIdx (i + 1) xs

/-- Lines 414-456 of the OCR service: dedup, build candidates, sort, and
emit at most 15 results with confidence > 0.5. -/
def titleScoring (validTitles : List (List Char)) : List DetectedTitle :=
  let uniqueTitles := removeDuplicateTitles validTitles
  let cands := buildCandidates uniqueTitles
  let sorted := sortByKeyDesc candidateKey cands
  let selected := (sorted.filter (fun c => (1:ℚ)/2 < c.2.1)).take 15
  (withIdx 0 selected).map
    (fun p => ⟨"ocr-" ++ toString p.1, p.2.1, min ((19:ℚ)/20) p.2.2.1⟩)

/-! ## The AI vision service (aiVisionService.ts)

extractTitlesFromImage converts the image, calls the vision backend and
maps each returned title through findBestMovieMatch; if anything in that
try block throws (image load failure, backend failure), the catch block
pushes nine hardcoded fallback titles with confidence 0.8.  The outcome of
the fallible part is the argument here. -/

/-- The curated MOVIE_DATABASE list (movieDatabase.ts 2-126). -/
def MOVIE_DATABASE : List (List Char) :=
  [ "HELLBOY II THE GOLDEN ARMY".toList, "HELLBOY II".toList,
   "snatch".toList, "GLORY".toList, "SPIDER-MAN TRILOGY".toList,
   "SPIDER-MAN".toList, "FURIOSA A MAD MAX SAGA".toList, "FURIOSA".toList,
   "MAD MAX FURY ROAD".toList, "BATMAN".toList, "BATMAN BEGINS".toList,
   "THE DARK KNIGHT".toList, "DOOM".toList, "GOTHAM".toList, "Drive".toList,
   "TAXI DRIVER".toList, "CASINO ROYALE".toList, "James Bond".toList,
   "007".toList, "The Godfather".toList, "Pulp Fiction".toList,
   "The Shawshank Redemption".toList, "Fight Club".toList,
   "The Matrix".toList, "Inception".toList, "Interstellar".toList,
   "Blade Runner 2049".toList, "John Wick".toList, "The Avengers".toList,
   "Iron Man".toList, "Captain America".toList, "Thor".toList,
   "Guardians of the Galaxy".toList, "Black Panther".toList,
   "Wonder Woman".toList, "Justice League".toList, "Superman".toList,
   "Man of Steel".toList, "Aquaman".toList, "The Flash".toList,
   "Green Lantern".toList, "Deadpool".toList, "X-Men".toList,
   "Wolverine".toList, "Fantastic Four".toList, "Daredevil".toList,
   "The Punisher".toList, "Ghost Rider".toList, "Blade".toList,
   "Spawn".toList, "Watchmen".toList, "V for Vendetta".toList,
   "Sin City".toList, "300".toList, "Gladiator".toList, "Braveheart".toList,
   "The Lord of the Rings".toList, "The Hobbit".toList,
   "Harry Potter".toList, "Star Wars".toList, "Star Trek".toList,
   "Alien".toList, "Predator".toList, "Terminator".toList, "RoboCop".toList,
   "Total Recall".toList, "Minority Report".toList, "I Robot".toList,
   "The Fifth Element".toList, "Elysium".toList, "District 9".toList,
   "Chappie".toList, "Pacific Rim".toList, "Transformers".toList,
   "Fast & Furious".toList, "The Fast and the Furious".toList,
   "Mission Impossible".toList, "Bourne Identity".toList,
   "Bourne Supremacy".toList, "Bourne Ultimatum".toList,
   "Casino Royale".toList, "Quantum of Solace".toList, "Skyfall".toList,
   "Spectre".toList, "No Time to Die".toList, "Die Hard".toList,
   "Lethal Weapon".toList, "Rush Hour".toList, "Bad Boys".toList,
   "Men in Black".toList, "Independence Day".toList, "Armageddon".toList,
   "Deep Impact".toList, "The Rock".toList, "Con Air".toList,
   "Face/Off".toList, "Gone in 60 Seconds".toList,
   "National Treasure".toList, "Pirates of the Caribbean".toList,
   "Indiana Jones".toList, "Jurassic Park".toList, "Jurassic World".toList,
   "King Kong".toList, "Godzilla".toList, "Pacific Rim".toList,
   "Cloverfield".toList, "Super 8".toList, "War of the Worlds".toList,
   "Signs".toList, "The Sixth Sense".toList, "Unbreakable".toList,
   "Split".toList, "Glass".toList, "The Village".toList,
   "Lady in the Water".toList, "The Happening".toList,
   "The Last Airbender".toList, "After Earth".toList, "Old".toList,
   "Knock at the Cabin".toList]

/-- big starts with sub (character-for-character). -/
def startsWithList : List Char → List Char → Bool
  | _, [] => true
  | [], _ :: _ => false
  | c :: cs, p :: ps => c == p && startsWithList cs ps

/-- JS String.prototype.includes: sub occurs contiguously in big. -/
def jsIncludes (big sub : List Char) : Bool :=
  match big with
  | [] => sub.isEmpty
  | _ :: rest => startsWithList big sub || jsIncludes rest sub

/-- findBestMovieMatch (movieDatabase.ts 129-161): exact match, then
substring match of substantial length, then fuzzy similarity > 0.6. -/
def findBestMovieMatch (ocrText : List Char) : Option (List Char) :=
  if ocrText.length < 2 then none
  else
    let clean := trimWs (lowerStr ocrText)
    match MOVIE_DATABASE.find? (fun movie => lowerStr movie == clean) with
    | some movie => some movie
    | none =>
        match MOVIE_DATABASE.find? (fun movie =>
            let ml := lowerStr movie
            (jsIncludes clean ml || jsIncludes ml clean) &&
              3 ≤ min clean.length ml.length) with
        | some movie => some movie
        | none =>
            MOVIE_DATABASE.find? (fun movie =>
              (3:ℚ)/5 < calculateSimilarity clean (lowerStr movie))

/-- The hardcoded fallback list of the catch block (lines 116-126). -/
def aiFallbackTitles : List (List Char) :=
  [ "Hellboy II: The Golden Army".toList, "Snatch".toList, "Glory".toList,
    "Spider-Man Trilogy".toList, "Furiosa: A Mad Max Saga".toList,
    "Batman".toList, "Drive".toList, "Taxi Driver".toList,
    "Casino Royale".toList]

/-- extractTitlesFromImage of aiVisionService.ts (lines 78-140), as a
function of the outcome of its fallible try block: on success each
identified title is pushed with spineId ai-i and confidence 0.95, on any
failure the nine fallback titles are pushed with spineId fallback-i and
confidence 0.8. -/
def extractTitlesFromImageAI (aiCall : Except Unit (List (List Char))) :
    List DetectedTitle :=
  match aiCall with
  | Except.ok titles =>
      (withIdx 0 titles).map
        (fun p =>
          ⟨"ai-" ++ toString p.1, (findBestMovieMatch p.2).getD p.2, (19:ℚ)/20⟩)
  | Except.error _ =>
      (withIdx 0 aiFallbackTitles).map
        (fun p => ⟨"fallback-" ++ toString p.1, p.2, (4:ℚ)/5⟩)

/-! ## The third levenshteinDistance copy (movieDatabase.ts 923-945)

This copy initialises the first row with matrix[j] = j instead of
matrix[0][j] = j, overwriting the row arrays matrix[0] .. matrix[len1]
with plain numbers.  Its JS runtime behaviour is modelled exactly: a cell
holds a number, an array of numbers (where a stored NaN or undefined is
none), or a hole; reading an index of a number yields undefined, adding 1
to undefined yields NaN, Math.min with NaN yields NaN, and assigning a
property of a number throws a TypeError in strict mode (TS modules are
strict), modelled as Except.error. -/

inductive JsVal where
  | num : Nat → JsVal
  | arr : List (Option Nat) → JsVal
  | undef : JsVal
deriving DecidableEq

/-- matrix[i][j] as a value read (the rows read by the loops always exist). -/
def jsRead2 (m : List JsVal) (i j : Nat) : Option Nat :=
  match m[i]? with
  | some (JsVal.arr a) => a.getD j none
  | _ => none

/-- a[j] = v, extending with holes like a JS array. -/
def jsArraySet (a : List (Option Nat)) (j : Nat) (v : Option Nat) :
    List (Option Nat) :=
  if j < a.length then a.set j v
  else a ++ List.replicate (j - a.length) none ++ [v]

/-- matrix[i][j] = v: throws when matrix[i] is not an array. -/
def jsWrite2 (m : List JsVal) (i j : Nat) (v : Option Nat) :
    Except Unit (List JsVal) :=
  match m[i]? with
  | some (JsVal.arr a) => Except.ok (m.set i (JsVal.arr (jsArraySet a j v)))
  | _ => Except.error ()

/-- matrix[i] = v, extending with holes. -/
def jsSetIdx (m : List JsVal) (i : Nat) (v : JsVal) : List JsVal :=
  if i < m.length then m.set i v
  else m ++ List.replicate (i - m.length) JsVal.undef ++ [v]

/-- Math.min over possibly-NaN values: NaN propagates. -/
def jsMin2 (x y : Option Nat) : Option Nat :=
  match x, y with
  | some a, some b => some (min a b)
  | _, _ => none

/-- x + 1 over possibly-NaN/undefined values. -/
def jsAdd1 (x : Option Nat) : Option Nat :=
  x.map (fun v => v + 1)

/-- The double loop of the broken copy. -/
def brokenLoop (str1 str2 : List Char) (m : List JsVal) :
    Except Unit (List JsVal) :=
  (List.range' 1 str2.length).foldlM
    (fun mi i =>
      (List.range' 1 str1.length).foldlM
        (fun mj j =>
          let v :=
            if str2.getD (i - 1) ' ' = str1.getD (j - 1) ' ' then
              jsRead2 mj (i - 1) (j - 1)
            else
              jsMin2 (jsMin2 (jsAdd1 (jsRead2 mj (i - 1) (j - 1)))
                  (jsAdd1 (jsRead2 mj i (j - 1))))
                (jsAdd1 (jsRead2 mj (i - 1) j))
          jsWrite2 mj i j v)
        mi)
    m

/-- The copy at movieDatabase.ts 923-945: matrix[i] = [i] for every row,
then the slip matrix[j] = j (instead of matrix[0][j] = j), then the DP
loops, then matrix[str2.length][str1.length]. -/
def levenshteinDistanceBroken (str1 str2 : List Char) :
    Except Unit (Option Nat) :=
  let m0 : List JsVal :=
    (List.range (str2.length + 1)).map (fun i => JsVal.arr [some i])
  let m1 :=
    (List.range (str1.length + 1)).foldl
      (fun m j => jsSetIdx m j (JsVal.num j)) m0
  match brokenLoop str1 str2 m1 with
  | Except.error e => Except.error e
  | Except.ok m2 => Except.ok (jsRead2 m2 str2.length str1.length)

/-- Whitespace-normal strings: every whitespace character is a plain space
and no two whitespace characters are adjacent. -/
def wsNormal : List Char → Bool
  | [] => true
  | [c] => !isWsChar c || c == ' '
  | c :: d :: rest =>
      (!isWsChar c || (c == ' ' && !isWsChar d)) && wsNormal (d :: rest)

/-! # Claims

One theorem per audited claim, stated over the embedded definitions. -/

/-- Modelled from the spec: the redesigned ranker score formula
clamp(0, 1, maxBackendConfidence + 0.1 * (supportCount - 1)).  This is the
specification-side definition that claim C5 compares with the source. -/
def specRankScore (maxBackendConfidence : ℚ) (supportCount : Nat) : ℚ :=
  max 0 (min 1 (maxBackendConfidence + (1:ℚ)/10 * ((supportCount : ℚ) - 1)))

/-- How similar two concrete strings may be while both being retained. -/
def cexA : List Char := "aaaaaaaaaaaaaaaaaaaa".toList

/-- Differs from cexA by exactly three substitutions: similarity 17/20. -/
def cexB : List Char := "aaaaaaaaaaaaaaaaabbb".toList

def tDark : List Char := "THE DARK KNIGHT".toList

def tDark2 : List Char := "the dark knght".toList

def tSnatch : List Char := "SNATCH".toList

/-! # Theorems -/

theorem lev_nil_left (b : List Char) : lev [] b = b.length := by
  cases b <;> simp [lev]

theorem lev_nil_right (a : List Char) : lev a [] = a.length := by
  cases a <;> simp [lev]

theorem lev_cons_cons (x y : Char) (a b : List Char) :
    lev (x :: a) (y :: b) =
      min (lev a (y :: b) + 1)
        (min (lev (x :: a) b + 1) (lev a b + (if x = y then 0 else 1))) := by
  simp [lev]

/-- Deleting the head of the left string changes the distance by at most one. -/
theorem lev_cons_left_le (x : Char) (a b : List Char) :
    lev (x :: a) b ≤ lev a b + 1 := by
  cases b with
  | nil => simp [lev_nil_right]
  | cons y ys =>
      rw [lev_cons_cons]
      rcases eq_or_ne x y with hxy | hxy
      · subst hxy; simp
      · simp [hxy]

/-- Inserting at the head of the right string changes the distance by at most one. -/
theorem lev_cons_right_le (y : Char) (a b : List Char) :
    lev a (y :: b) ≤ lev a b + 1 := by
  cases a with
  | nil => simp [lev_nil_left]
  | cons x xs =>
      rw [lev_cons_cons]
      rcases eq_or_ne x y with hxy | hxy
      · subst hxy; simp
      · simp [hxy]

/-- Removing the head of the left string lowers the distance by at most one. -/
theorem le_lev_cons_left (x : Char) (a b : List Char) :
    lev a b ≤ lev (x :: a) b + 1 := by
  induction b generalizing a with
  | nil => simp [lev_nil_right]; omega
  | cons y ys ih =>
      rw [lev_cons_cons]
      have h1 : lev a (y :: ys) ≤ lev a ys + 1 := lev_cons_right_le y a ys
      have h2 : lev a ys ≤ lev (x :: a) ys + 1 := ih a
      rcases eq_or_ne x y with hxy | hxy
      · subst hxy; simp; omega
      · simp [hxy]; omega

/-- Removing the head of the right string lowers the distance by at most one. -/
theorem le_lev_cons_right (y : Char) (a b : List Char) :
    lev a b ≤ lev a (y :: b) + 1 := by
  induction a generalizing b with
  | nil => simp [lev_nil_left]; omega
  | cons x xs ih =>
      rw [lev_cons_cons]
      have h1 : lev (x :: xs) b ≤ lev xs b + 1 := lev_cons_left_le x xs b
      have h2 : lev xs b ≤ lev xs (y :: b) + 1 := ih b
      rcases eq_or_ne x y with hxy | hxy
      · subst hxy; simp; omega
      · simp [hxy]; omega

/-- Replacing the head of the left string changes the distance by at most one. -/
theorem lev_subst_left_le (c d : Char) (a b : List Char) :
    lev (c :: a) b ≤ lev (d :: a) b + 1 := by
  induction b with
  | nil => simp [lev_nil_right]
  | cons y ys ih =>
      rw [lev_cons_cons c y a ys, lev_cons_cons d y a ys]
      rcases eq_or_ne c y with hc | hc
      · subst hc
        rcases eq_or_ne d c with hd | hd
        · subst hd; simp
        · simp [Ne.symm hd, hd]; omega
      · rcases eq_or_ne d y with hd | hd
        · subst hd; simp [hc]; omega
        · simp [hc, hd]; omega

/-- Matching heads contribute nothing to the distance. -/
theorem lev_cons_cons_self (x : Char) (a b : List Char) :
    lev (x :: a) (x :: b) = lev a b := by
  rw [lev_cons_cons]
  have h1 : lev a b ≤ lev a (x :: b) + 1 := le_lev_cons_right x a b
  have h2 : lev a b ≤ lev (x :: a) b + 1 := le_lev_cons_left x a b
  simp
  omega

theorem lev_self (a : List Char) : lev a a = 0 := by
  induction a with
  | nil => simp [lev_nil_left]
  | cons x xs ih => rw [lev_cons_cons_self]; exact ih

theorem OneEdit.length_le {a b : List Char} (h : OneEdit a b) :
    a.length ≤ b.length + 1 ∧ b.length ≤ a.length + 1 := by
  induction h with
  | insert c a => simp only [List.length_cons]; omega
  | delete c a => simp only [List.length_cons]; omega
  | subst c d a h => simp only [List.length_cons]; omega
  | cons x h ih => simpa using ih

/-- A single edit changes the distance to any fixed string by at most one. -/
theorem lev_le_of_oneEdit {a a' : List Char} (h : OneEdit a a') (b : List Char) :
    lev a b ≤ lev a' b + 1 := by
  induction h generalizing b with
  | insert c a => exact le_lev_cons_left c a b
  | delete c a => exact lev_cons_left_le c a b
  | subst c d a hcd => exact lev_subst_left_le c d a b
  | cons x h ih =>
      rename_i u v
      induction b with
      | nil =>
          simp only [lev_nil_right, List.length_cons]
          have := h.length_le
          omega
      | cons y ys ihb =>
          rw [lev_cons_cons x y u ys, lev_cons_cons x y v ys]
          have h1 : lev u (y :: ys) ≤ lev v (y :: ys) + 1 := ih (y :: ys)
          have h2 : lev u ys ≤ lev v ys + 1 := ih ys
          rcases eq_or_ne x y with hxy | hxy
          · subst hxy; simp; omega
          · simp [hxy]; omega

/-- Lower bound: no edit chain is shorter than lev. -/
theorem lev_le_chain {a b : List Char} {n : Nat} (h : EditChain a b n) :
    lev a b ≤ n := by
  induction h with
  | refl a => simp [lev_self]
  | step h1 _h2 ih =>
      rename_i u v w m
      have := lev_le_of_oneEdit h1 w
      omega

theorem EditChain.trans {a b c : List Char} {m n : Nat}
    (h1 : EditChain a b m) (h2 : EditChain b c n) : EditChain a c (m + n) := by
  induction h1 with
  | refl a => simpa using h2
  | step e _rest ih =>
      rename_i u v w m'
      have h3 : m' + 1 + n = m' + n + 1 := by omega
      rw [h3]
      exact EditChain.step e (ih h2)

/-- A chain may also be extended by one edit at its end. -/
theorem EditChain.snoc {a b c : List Char} {n : Nat}
    (h1 : EditChain a b n) (h2 : OneEdit b c) : EditChain a c (n + 1) :=
  h1.trans (EditChain.step h2 (EditChain.refl c))

/-- Edits commute with prepending a common character. -/
theorem EditChain.cons (x : Char) {a b : List Char} {n : Nat}
    (h : EditChain a b n) : EditChain (x :: a) (x :: b) n := by
  induction h with
  | refl a => exact EditChain.refl (x :: a)
  | step e _rest ih => exact EditChain.step (OneEdit.cons x e) ih

/-- Any string is reachable from [] by one insertion per character. -/
theorem editChain_nil_left (b : List Char) : EditChain [] b b.length := by
  induction b with
  | nil => exact EditChain.refl []
  | cons y ys ih =>
      exact EditChain.step (OneEdit.insert y []) (EditChain.cons y ih)

/-- Any string reaches [] by one deletion per character. -/
theorem editChain_nil_right (a : List Char) : EditChain a [] a.length := by
  induction a with
  | nil => exact EditChain.refl []
  | cons x xs ih =>
      exact EditChain.step (OneEdit.delete x xs) ih

/-- Upper bound: an edit chain of length lev a b exists. -/
theorem editChain_lev (a b : List Char) : EditChain a b (lev a b) := by
  have key : ∀ (n : Nat) (a b : List Char), a.length + b.length ≤ n →
      EditChain a b (lev a b) := by
    intro n
    induction n with
    | zero =>
        intro a b hab
        have ha : a = [] := by cases a; rfl; simp at hab
        have hb : b = [] := by cases b; rfl; simp at hab
        subst ha; subst hb
        simpa [lev_nil_left] using EditChain.refl ([] : List Char)
    | succ n ih =>
        intro a b hab
        match a, b with
        | [], b =>
            simpa [lev_nil_left] using editChain_nil_left b
        | x :: xs, [] =>
            simpa [lev_nil_right] using editChain_nil_right (x :: xs)
        | x :: xs, y :: ys =>
            simp only [List.length_cons] at hab
            rcases eq_or_ne x y with hxy | hxy
            · subst hxy
              rw [lev_cons_cons_self]
              exact EditChain.cons x (ih xs ys (by omega))
            · rw [lev_cons_cons]
              simp only [if_neg hxy]
              rcases le_total (lev xs (y :: ys) + 1)
                  (min (lev (x :: xs) ys + 1) (lev xs ys + 1)) with h | h
              · rw [min_eq_left h]
                exact EditChain.step (OneEdit.delete x xs)
                  (ih xs (y :: ys) (by simp only [List.length_cons]; omega))
              · rw [min_eq_right h]
                rcases le_total (lev (x :: xs) ys + 1) (lev xs ys + 1) with h2 | h2
                · rw [min_eq_left h2]
                  exact EditChain.snoc
                    (ih (x :: xs) ys (by simp only [List.length_cons]; omega))
                    (OneEdit.insert y ys)
                · rw [min_eq_right h2]
                  exact EditChain.step (OneEdit.subst x y xs hxy)
                    (EditChain.cons y (ih xs ys (by omega)))
  exact key (a.length + b.length) a b le_rfl

/-- Insertion at the end of a string is a single edit. -/
theorem oneEdit_snoc_insert (u : List Char) (c : Char) :
    OneEdit u (u ++ [c]) := by
  induction u with
  | nil => exact OneEdit.insert c []
  | cons x xs ih => exact OneEdit.cons x ih

/-- Deletion at the end of a string is a single edit. -/
theorem oneEdit_snoc_delete (u : List Char) (c : Char) :
    OneEdit (u ++ [c]) u := by
  induction u with
  | nil => exact OneEdit.delete c []
  | cons x xs ih => exact OneEdit.cons x ih

/-- Substitution at the end of a string is a single edit. -/
theorem oneEdit_snoc_subst (u : List Char) {c d : Char} (h : c ≠ d) :
    OneEdit (u ++ [c]) (u ++ [d]) := by
  induction u with
  | nil => exact OneEdit.subst c d [] h
  | cons x xs ih => exact OneEdit.cons x ih

/-- Edits commute with appending a common character. -/
theorem OneEdit.snoc_congr {a b : List Char} (x : Char) (h : OneEdit a b) :
    OneEdit (a ++ [x]) (b ++ [x]) := by
  induction h with
  | insert c a => exact OneEdit.insert c (a ++ [x])
  | delete c a => exact OneEdit.delete c (a ++ [x])
  | subst c d a hcd => exact OneEdit.subst c d (a ++ [x]) hcd
  | cons y h ih => exact OneEdit.cons y ih

/-- A single edit on reversed strings is a single edit. -/
theorem oneEdit_rev {a b : List Char} (h : OneEdit a b) :
    OneEdit a.reverse b.reverse := by
  induction h with
  | insert c a => simpa using oneEdit_snoc_insert a.reverse c
  | delete c a => simpa using oneEdit_snoc_delete a.reverse c
  | subst c d a hcd => simpa using oneEdit_snoc_subst a.reverse hcd
  | cons y h ih => simpa using OneEdit.snoc_congr y ih

/-- Edit chains are invariant under reversing both strings. -/
theorem editChain_rev {a b : List Char} {n : Nat} (h : EditChain a b n) :
    EditChain a.reverse b.reverse n := by
  induction h with
  | refl a => exact EditChain.refl a.reverse
  | step e _rest ih => exact EditChain.step (oneEdit_rev e) ih

/-- Levenshtein distance is invariant under reversing both strings. -/
theorem lev_reverse (a b : List Char) :
    lev a.reverse b.reverse = lev a b := by
  apply le_antisymm
  · exact lev_le_chain (editChain_rev (editChain_lev a b))
  · have h := editChain_rev (editChain_lev a.reverse b.reverse)
    simpa using lev_le_chain h

theorem ELev_zero_left (s1 s2 : List Char) (j : Nat) (hj : j ≤ s1.length) :
    ELev s1 s2 0 j = j := by
  simp [ELev, lev_nil_right, List.length_take, Nat.min_eq_left hj]

theorem ELev_zero_right (s1 s2 : List Char) (i : Nat) (hi : i ≤ s2.length) :
    ELev s1 s2 i 0 = i := by
  simp [ELev, lev_nil_left, List.length_take, Nat.min_eq_left hi]

theorem take_succ_of_drop {l : List Char} {j : Nat} {x : Char} {xs : List Char}
    (h : l.drop j = x :: xs) :
    l.take (j + 1) = l.take j ++ [x] := by
  have hx : l[j]? = some x := by
    rw [← List.head?_drop, h]; rfl
  rw [List.take_succ, hx]
  rfl

theorem drop_succ_of_drop {l : List Char} {j : Nat} {x : Char} {xs : List Char}
    (h : l.drop j = x :: xs) :
    l.drop (j + 1) = xs := by
  have h2 : List.drop 1 (List.drop j l) = List.drop (j + 1) l :=
    List.drop_drop 1 j l
  rw [h] at h2
  simpa using h2.symm

/-- The recurrence of the source matrix, expressed for ELev. -/
theorem ELev_succ_succ (s1 s2 : List Char) {i j : Nat} {x y : Char}
    {xs ys : List Char} (hx : s1.drop j = x :: xs) (hy : s2.drop i = y :: ys) :
    ELev s1 s2 (i + 1) (j + 1) =
      if y = x then ELev s1 s2 i j
      else min (min (ELev s1 s2 i j + 1) (ELev s1 s2 (i + 1) j + 1))
        (ELev s1 s2 i (j + 1) + 1) := by
  have hks1 : s1.take (j + 1) = s1.take j ++ [x] := take_succ_of_drop hx
  have hks2 : s2.take (i + 1) = s2.take i ++ [y] := take_succ_of_drop hy
  have e1 : (s1.take (j + 1)).reverse = x :: (s1.take j).reverse := by
    rw [hks1]; simp
  have e2 : (s2.take (i + 1)).reverse = y :: (s2.take i).reverse := by
    rw [hks2]; simp
  unfold ELev
  rw [e1, e2, lev_cons_cons]
  set u := (s1.take j).reverse with hu
  set v := (s2.take i).reverse with hv
  have h1 : lev u v ≤ lev u (y :: v) + 1 := le_lev_cons_right y u v
  have h2 : lev u v ≤ lev (x :: u) v + 1 := le_lev_cons_left x u v
  rcases eq_or_ne y x with hxy | hxy
  · subst hxy
    simp
    omega
  · rw [if_neg hxy, if_neg (Ne.symm hxy)]
    omega

/-- buildRow turns the tail of row i (from entry j on) into the tail of
row i+1 (from entry j+1 on). -/
theorem buildRow_spec (s1 s2 : List Char) {i : Nat} {y : Char} {ys : List Char}
    (hy : s2.drop i = y :: ys) :
    ∀ (u : List Char) (j : Nat), s1.drop j = u →
      buildRow y u ((List.range' j (s1.length + 1 - j)).map (ELev s1 s2 i))
          (ELev s1 s2 (i + 1) j) =
        (List.range' (j + 1) (s1.length - j)).map (ELev s1 s2 (i + 1)) := by
  intro u
  induction u with
  | nil =>
      intro j hj
      have hlen : s1.length ≤ j := by
        have := List.length_drop j s1
        rw [hj] at this
        simp at this
        omega
      have h0 : s1.length - j = 0 := by omega
      rw [h0]
      rcases hk : s1.length + 1 - j with _ | k
      · simp [buildRow]
      · have hk1 : k = 0 := by omega
        subst hk1
        simp [buildRow]
  | cons x xs ih =>
      intro j hj
      have hjlt : j < s1.length := by
        have := List.length_drop j s1
        rw [hj] at this
        simp at this
        omega
      have hrange : s1.length + 1 - j = (s1.length - j) + 1 := by omega
      have hrange2 : s1.length - j = (s1.length - (j + 1)) + 1 := by omega
      have hrest : (List.range' j (s1.length + 1 - j)).map (ELev s1 s2 i) =
          ELev s1 s2 i j :: ELev s1 s2 i (j + 1) ::
            (List.range' (j + 2) (s1.length - (j + 1))).map (ELev s1 s2 i) := by
      -- hole1
        rw [hrange]
        have hr1 : List.range' j ((s1.length - j) + 1) =
            j :: List.range' (j + 1) (s1.length - j) := rfl
        rw [hr1, hrange2]
        have hr2 : List.range' (j + 1) ((s1.length - (j + 1)) + 1) =
            (j + 1) :: List.range' (j + 2) (s1.length - (j + 1)) := rfl
        rw [hr2]
        rfl
      have hRHS : (List.range' (j + 1) (s1.length - j)).map (ELev s1 s2 (i + 1)) =
          ELev s1 s2 (i + 1) (j + 1) ::
            (List.range' (j + 2) (s1.length - (j + 1))).map (ELev s1 s2 (i + 1)) := by
        rw [hrange2]
        have hr2 : List.range' (j + 1) ((s1.length - (j + 1)) + 1) =
            (j + 1) :: List.range' (j + 2) (s1.length - (j + 1)) := rfl
        rw [hr2]
        rfl
      rw [hrest, hRHS]
      have hv : (if y = x then ELev s1 s2 i j
          else min (min (ELev s1 s2 i j + 1) (ELev s1 s2 (i + 1) j + 1))
            (ELev s1 s2 i (j + 1) + 1)) = ELev s1 s2 (i + 1) (j + 1) :=
        (ELev_succ_succ s1 s2 hj hy).symm
      have htail := ih (j + 1) (drop_succ_of_drop hj)
      have hn : s1.length + 1 - (j + 1) = s1.length - j := by omega
      rw [hn, hrange2] at htail
      have hr2 : List.range' (j + 1) ((s1.length - (j + 1)) + 1) =
          (j + 1) :: List.range' (j + 2) (s1.length - (j + 1)) := rfl
      rw [hr2] at htail
      simp only [buildRow, List.map_cons, List.headD_cons] at htail ⊢
      rw [hv]
      have hjj : j + 1 + 1 = j + 2 := rfl
      rw [hjj] at htail
      rw [htail]

/-- The outer fold turns row i into the final row. -/
theorem foldl_levStep_spec (s1 s2 : List Char) :
    ∀ (v : List Char) (i : Nat), s2.drop i = v → i ≤ s2.length →
      v.foldl (levStep s1) (rowVals s1 s2 i, i) =
        (rowVals s1 s2 s2.length, s2.length) := by
  intro v
  induction v with
  | nil =>
      intro i hv hi
      have hlen : s2.length ≤ i := by
        have := List.length_drop i s2
        rw [hv] at this
        simp at this
        omega
      have : i = s2.length := by omega
      subst this
      rfl
  | cons c v' ih =>
      intro i hv hi
      have hilt : i < s2.length := by
        have := List.length_drop i s2
        rw [hv] at this
        simp at this
        omega
      have hstep : levStep s1 (rowVals s1 s2 i, i) c =
          (rowVals s1 s2 (i + 1), i + 1) := by
        unfold levStep rowVals
        have hleft : ELev s1 s2 (i + 1) 0 = i + 1 :=
          ELev_zero_right s1 s2 (i + 1) (by omega)
        have hbr := buildRow_spec s1 s2 hv s1 0 (by simp)
        rw [hleft] at hbr
        simp only [Nat.sub_zero] at hbr
        have hrow : (List.range' 0 (s1.length + 1)).map (ELev s1 s2 (i + 1)) =
            ELev s1 s2 (i + 1) 0 ::
              (List.range' 1 s1.length).map (ELev s1 s2 (i + 1)) := by
          have hr : List.range' 0 (s1.length + 1) =
              0 :: List.range' 1 s1.length := rfl
          rw [hr]
          rfl
        rw [hrow, hleft]
        simp only [Prod.mk.injEq]
        constructor
        · rw [show (0:Nat) + 1 = 1 from rfl] at hbr
          rw [hbr]
        · trivial
      simp only [List.foldl_cons, hstep]
      exact ih (i + 1) (drop_succ_of_drop hv) (by omega)

theorem getLastD_map_range' (f : Nat → Nat) :
    ∀ (k s : Nat) (d : Nat), ((List.range' s (k + 1)).map f).getLastD d = f (s + k) := by
  intro k
  induction k with
  | zero => intro s d; simp
  | succ k ih =>
      intro s d
      have hr : List.range' s (k + 1 + 1) = s :: List.range' (s + 1) (k + 1) :=
        rfl
      rw [hr, List.map_cons, List.getLastD_cons]
      have h2 := ih (s + 1) (f s)
      rw [h2]
      congr 1
      omega

/-- The imperative DP of the source computes the classic recursive
Levenshtein distance. -/
theorem levenshteinDistance_eq_lev (s1 s2 : List Char) :
    levenshteinDistance s1 s2 = lev s1 s2 := by
  unfold levenshteinDistance
  have hrow0 : (List.range (s1.length + 1), (0:Nat)) = (rowVals s1 s2 0, 0) := by
    simp only [Prod.mk.injEq]
    refine ⟨?hrow, trivial⟩
    unfold rowVals
    rw [List.range_eq_range' (s1.length + 1)]
    have hmap : ∀ j ∈ List.range' 0 (s1.length + 1), j = ELev s1 s2 0 j := by
      intro j hj
      have hjle : j ≤ s1.length := by
        rcases List.mem_range'.mp hj with ⟨k, hk1, hk2⟩
        omega
      exact (ELev_zero_left s1 s2 j hjle).symm
    calc List.range' 0 (s1.length + 1)
        = (List.range' 0 (s1.length + 1)).map id := by simp
      _ = (List.range' 0 (s1.length + 1)).map (ELev s1 s2 0) :=
          List.map_congr_left hmap
  rw [hrow0]
  rw [foldl_levStep_spec s1 s2 s2 0 (by simp) (by omega)]
  unfold rowVals
  rw [getLastD_map_range' (ELev s1 s2 s2.length) s1.length 0 0]
  unfold ELev
  rw [Nat.zero_add, List.take_length, List.take_length, lev_reverse]

theorem calculateSimilarity_self (s : List Char) :
    calculateSimilarity s s = 1 := by
  unfold calculateSimilarity
  simp only [lt_irrefl, if_false]
  rcases eq_or_ne s.length 0 with h0 | h0
  · simp [h0]
  · rw [if_neg h0]
    rw [levenshteinDistance_eq_lev, lev_self]
    push_cast
    rw [sub_zero, div_self]
    exact_mod_cast h0

/-- The fold of removeDuplicateTitles only ever appends. -/
theorem removeDuplicateTitles_foldl_append (ts : List (List Char)) :
    ∀ acc : List (List Char),
      ∃ u, ts.foldl
          (fun unique title =>
            if unique.any (fun existing => isDupOf title existing) then unique
            else unique ++ [title]) acc = acc ++ u ∧ u.Sublist ts := by
  induction ts with
  | nil => intro acc; exact ⟨[], by simp⟩
  | cons t ts ih =>
      intro acc
      simp only [List.foldl_cons]
      by_cases h : acc.any (fun existing => isDupOf t existing)
      · rw [if_pos h]
        rcases ih acc with ⟨u, hu, hsub⟩
        exact ⟨u, hu, hsub.cons t⟩
      · rw [if_neg h]
        rcases ih (acc ++ [t]) with ⟨u, hu, hsub⟩
        refine ⟨t :: u, ?conc, hsub.cons₂ t⟩
        rw [hu, List.append_assoc]
        rfl

/-- Pairwise invariant of the kept list: a later kept title is never a
near-duplicate of an earlier kept one. -/
theorem removeDuplicateTitles_pairwise (ts : List (List Char)) :
    List.Pairwise (fun earlier later => isDupOf later earlier = false)
      (removeDuplicateTitles ts) := by
  unfold removeDuplicateTitles
  suffices h : ∀ acc : List (List Char),
      List.Pairwise (fun earlier later => isDupOf later earlier = false) acc →
      List.Pairwise (fun earlier later => isDupOf later earlier = false)
        (ts.foldl
          (fun unique title =>
            if unique.any (fun existing => isDupOf title existing) then unique
            else unique ++ [title]) acc) by
    exact h [] List.Pairwise.nil
  induction ts with
  | nil => intro acc hacc; simpa using hacc
  | cons t ts ih =>
      intro acc hacc
      simp only [List.foldl_cons]
      by_cases h : acc.any (fun existing => isDupOf t existing)
      · rw [if_pos h]
        exact ih acc hacc
      · rw [if_neg h]
        apply ih
        rw [List.pairwise_append]
        refine ⟨hacc, by simp, ?rel⟩
        intro a ha b hb
        simp only [List.mem_singleton] at hb
        subst hb
        have h2 := List.any_eq_false.mp (Bool.of_not_eq_true h) a ha
        simpa using h2

/-- The kept list is a subsequence of the input. -/
theorem removeDuplicateTitles_sublist (ts : List (List Char)) :
    (removeDuplicateTitles ts).Sublist ts := by
  rcases removeDuplicateTitles_foldl_append ts [] with ⟨u, hu, hsub⟩
  unfold removeDuplicateTitles
  rw [hu]
  simpa using hsub

/-- The first input title is always kept, in first position. -/
theorem removeDuplicateTitles_head? (ts : List (List Char)) :
    (removeDuplicateTitles ts).head? = ts.head? := by
  cases ts with
  | nil => rfl
  | cons t rest =>
      unfold removeDuplicateTitles
      simp only [List.foldl_cons, List.any_nil, Bool.false_eq_true, if_false,
        List.nil_append]
      rcases removeDuplicateTitles_foldl_append rest [t] with ⟨u, hu, _hsub⟩
      rw [hu]
      rfl

theorem isDupOf_self (s : List Char) : isDupOf s s = true := by
  unfold isDupOf
  rw [calculateSimilarity_self (lowerStr s)]
  norm_num

/-- No two kept titles are character-for-character equal. -/
theorem removeDuplicateTitles_nodup (ts : List (List Char)) :
    (removeDuplicateTitles ts).Nodup := by
  have h := removeDuplicateTitles_pairwise ts
  refine h.imp ?imp
  intro a b hab heq
  subst heq
  rw [isDupOf_self a] at hab
  simp at hab

/-! ## A Nat-level form of the duplicate test

Rationals in Lean do not reduce inside the kernel, so for computations on
concrete inputs the comparison similarity > 0.85 is bridged to the
equivalent cross-multiplied comparison on natural numbers. -/

theorem lev_le_max_length (a b : List Char) :
    lev a b ≤ max a.length b.length := by
  have key : ∀ (n : Nat) (a b : List Char), a.length + b.length ≤ n →
      lev a b ≤ max a.length b.length := by
    intro n
    induction n with
    | zero =>
        intro a b hab
        match a, b with
        | [], b => simp [lev_nil_left]
        | x :: xs, [] => simp [lev_nil_right]
        | x :: xs, y :: ys => simp at hab
    | succ n ih =>
        intro a b hab
        match a, b with
        | [], b => simp [lev_nil_left]
        | x :: xs, [] => simp [lev_nil_right]
        | x :: xs, y :: ys =>
            simp only [List.length_cons] at hab
            rw [lev_cons_cons]
            have h3 := ih xs ys (by omega)
            simp only [List.length_cons]
            rcases eq_or_ne x y with hxy | hxy
            · subst hxy; simp; omega
            · simp [hxy]; omega
  exact key (a.length + b.length) a b le_rfl

theorem isDupOf_eq_nat (title existing : List Char) :
    isDupOf title existing = isDupOfNat title existing := by
  unfold isDupOf isDupOfNat calculateSimilarity
  set t := lowerStr title
  set e := lowerStr existing
  set longer := if e.length < t.length then t else e with hlg
  set shorter := if e.length < t.length then e else t with hsh
  rcases eq_or_ne longer.length 0 with h0 | h0
  · simp only [h0, if_pos rfl]
    norm_num
  · rw [if_neg h0, if_neg h0]
    have hL : 0 < longer.length := Nat.pos_of_ne_zero h0
    have hd : levenshteinDistance longer shorter ≤ longer.length := by
      rw [levenshteinDistance_eq_lev]
      have h1 := lev_le_max_length longer shorter
      have h2 : shorter.length ≤ longer.length := by
        rw [hlg, hsh]
        rcases Nat.lt_or_ge e.length t.length with h | h
        · rw [if_pos h, if_pos h]; omega
        · rw [if_neg (by omega), if_neg (by omega)]; omega
      omega
    set d := levenshteinDistance longer shorter
    set L := longer.length
    have hcast : ((L - d : Nat) : ℚ) = (L : ℚ) - d := by
      push_cast [Nat.cast_sub hd]
      ring
    have hiff : ((17:ℚ)/20 < ((L:ℚ) - d) / L) ↔
        (17 * L < 20 * (L - d)) := by
      rw [div_lt_div_iff₀ (by norm_num) (by exact_mod_cast hL)]
      rw [← hcast]
      constructor
      · intro h
        have h2 : ((17 * L : Nat) : ℚ) < ((20 * (L - d) : Nat) : ℚ) := by
          push_cast
          linarith
        exact_mod_cast h2
      · intro h
        have h2 : ((17 * L : Nat) : ℚ) < ((20 * (L - d) : Nat) : ℚ) := by
          exact_mod_cast h
        push_cast at h2
        linarith
    simp only [decide_eq_decide]
    exact hiff

theorem removeDuplicateTitles_eq_nat (titles : List (List Char)) :
    removeDuplicateTitles titles = removeDuplicateTitlesNat titles := by
  unfold removeDuplicateTitles removeDuplicateTitlesNat
  congr 1
  funext unique title
  simp only [isDupOf_eq_nat]

theorem bumpCluster_eq_nat (acc : List (List Char × Nat)) (t : List Char) :
    bumpCluster acc t = bumpClusterNat acc t := by
  induction acc with
  | nil => rfl
  | cons e rest ih =>
      unfold bumpCluster bumpClusterNat
      rw [isDupOf_eq_nat, ih]

theorem dedupClusters_eq_nat (titles : List (List Char)) :
    dedupClusters titles = dedupClustersNat titles := by
  unfold dedupClusters dedupClustersNat
  congr 1
  funext acc t
  exact bumpCluster_eq_nat acc t

/-! ## Support lemmas about the normalizer stages -/

theorem dropWhile_idem (p : Char → Bool) (l : List Char) :
    (l.dropWhile p).dropWhile p = l.dropWhile p := by
  induction l with
  | nil => rfl
  | cons c rest ih =>
      by_cases h : p c
      · simp [List.dropWhile_cons, h, ih]
      · simp [List.dropWhile_cons, h]

theorem dropWhile_eq_self_of_head (p : Char → Bool) (l : List Char)
    (h : ∀ c, l.head? = some c → p c = false) :
    l.dropWhile p = l := by
  cases l with
  | nil => rfl
  | cons c rest =>
      have hc := h c rfl
      simp [List.dropWhile_cons, hc]

/-- The head surviving dropWhile fails the predicate. -/
theorem head_dropWhile_false (p : Char → Bool) :
    ∀ (l : List Char) (e : Char) (rest : List Char),
      l.dropWhile p = e :: rest → p e = false := by
  intro l
  induction l with
  | nil => intro e rest h; cases h
  | cons a as ih =>
      intro e rest h
      by_cases ha : p a
      · rw [List.dropWhile_cons, if_pos ha] at h
        exact ih e rest h
      · rw [List.dropWhile_cons, if_neg ha] at h
        cases h
        rw [Bool.not_eq_true] at ha
        exact ha

/-- trim is idempotent. -/
theorem trimWs_trimWs (l : List Char) : trimWs (trimWs l) = trimWs l := by
  unfold trimWs
  set u := l.dropWhile isWsChar with hu
  set v := u.reverse.dropWhile isWsChar with hv
  have h1 : v.reverse.dropWhile isWsChar = v.reverse := by
    apply dropWhile_eq_self_of_head
    intro c hc
    rw [List.head?_reverse] at hc
    have hsuffix : v.IsSuffix u.reverse := List.dropWhile_suffix isWsChar
    rcases hsuffix with ⟨w, hw⟩
    have hvne : v ≠ [] := by
      intro hnil
      rw [hnil] at hc
      simp at hc
    have hlast : v.getLast? = u.reverse.getLast? := by
      rw [← hw]
      exact (List.getLast?_append_of_ne_nil w hvne).symm
    rw [hlast, List.getLast?_reverse] at hc
    rcases hl : l.dropWhile isWsChar with _ | ⟨e, rest⟩
    · rw [hu, hl] at hc; simp at hc
    · rw [hu, hl] at hc
      simp at hc
      subst hc
      exact head_dropWhile_false isWsChar l e rest hl
  rw [h1, List.reverse_reverse, hv, dropWhile_idem]

theorem wsNormal_tail {c : Char} {rest : List Char}
    (h : wsNormal (c :: rest) = true) : wsNormal rest = true := by
  cases rest with
  | nil => rfl
  | cons d rest2 =>
      unfold wsNormal at h
      rw [Bool.and_eq_true] at h
      exact h.2

theorem wsNormal_head {c : Char} {rest : List Char}
    (h : wsNormal (c :: rest) = true) (hws : isWsChar c = true) :
    c = ' ' ∧ (∀ d rest2, rest = d :: rest2 → isWsChar d = false) := by
  cases rest with
  | nil =>
      unfold wsNormal at h
      rw [hws] at h
      simp at h
      exact ⟨h, by intro d rest2 hd; cases hd⟩
  | cons d rest2 =>
      unfold wsNormal at h
      rw [hws] at h
      rw [Bool.and_eq_true] at h
      have h1 := h.1
      simp at h1
      refine ⟨h1.1, ?tail⟩
      intro e rest3 he
      cases he
      exact h1.2

/-- On a whitespace-normal string the whitespace-collapsing pass is the
identity. -/
theorem collapseWsAux_eq_self :
    ∀ (l : List Char), wsNormal l = true →
      (collapseWsAux false l = l ∧
        ((∀ d rest, l = d :: rest → isWsChar d = false) →
          collapseWsAux true l = l)) := by
  intro l
  induction l with
  | nil => intro _; exact ⟨rfl, fun _ => rfl⟩
  | cons c rest ih =>
      intro h
      have htail := wsNormal_tail h
      have ihrest := ih htail
      constructor
      · by_cases hws : isWsChar c = true
        · rcases wsNormal_head h hws with ⟨hsp, hnext⟩
          have hrest : collapseWsAux true rest = rest := ihrest.2 hnext
          subst hsp
          simp [collapseWsAux, hws, hrest]
        · rw [Bool.not_eq_true] at hws
          simp [collapseWsAux, hws, ihrest.1]
      · intro hhead
        have hc : isWsChar c = false := hhead c rest rfl
        simp [collapseWsAux, hc, ihrest.1]

theorem collapseWs_eq_self {l : List Char} (h : wsNormal l = true) :
    collapseWs l = l :=
  (collapseWsAux_eq_self l h).1

/-! ## Support lemmas about the scoring pipeline -/

theorem mem_withIdx {α : Type} :
    ∀ (l : List α) (i : Nat) (p : Nat × α), p ∈ withIdx i l → p.2 ∈ l := by
  intro l
  induction l with
  | nil => intro i p hp; cases hp
  | cons x xs ih =>
      intro i p hp
      unfold withIdx at hp
      rcases List.mem_cons.mp hp with h | h
      · subst h; exact List.mem_cons_self x xs
      · exact List.mem_cons_of_mem x (ih (i + 1) p h)

theorem mem_insertKeyDesc {α : Type} (key : α → ℚ) (a x : α) :
    ∀ (l : List α), x ∈ insertKeyDesc key a l → x = a ∨ x ∈ l := by
  intro l
  induction l with
  | nil =>
      intro h
      unfold insertKeyDesc at h
      rcases List.mem_singleton.mp h with h
      exact Or.inl h
  | cons y ys ih =>
      intro h
      unfold insertKeyDesc at h
      by_cases hk : key a ≤ key y
      · rw [if_pos hk] at h
        rcases List.mem_cons.mp h with h | h
        · exact Or.inr (List.mem_cons.mpr (Or.inl h))
        · rcases ih h with h | h
          · exact Or.inl h
          · exact Or.inr (List.mem_cons.mpr (Or.inr h))
      · rw [if_neg hk] at h
        rcases List.mem_cons.mp h with h | h
        · exact Or.inl h
        · exact Or.inr h

theorem mem_sortByKeyDesc {α : Type} (key : α → ℚ) (x : α) :
    ∀ (l : List α), x ∈ sortByKeyDesc key l → x ∈ l := by
  suffices h : ∀ (l acc : List α),
      x ∈ l.foldl (fun acc y => insertKeyDesc key y acc) acc →
        x ∈ acc ∨ x ∈ l by
    intro l hx
    rcases h l [] hx with h | h
    · cases h
    · exact h
  intro l
  induction l with
  | nil => intro acc h; exact Or.inl h
  | cons y ys ih =>
      intro acc h
      simp only [List.foldl_cons] at h
      rcases ih (insertKeyDesc key y acc) h with h | h
      · rcases mem_insertKeyDesc key y x acc h with h | h
        · exact Or.inr (List.mem_cons.mpr (Or.inl h))
        · exact Or.inl h
      · exact Or.inr (List.mem_cons.mpr (Or.inr h))

/-- On an exactly-deduplicated input every candidate is created fresh:
confidence 0.8, count 1; the bump branch is dead. -/
theorem buildCandidates_conf (ts : List (List Char)) (hnd : ts.Nodup) :
    ∀ c ∈ buildCandidates ts, c.2.1 = (4:ℚ)/5 ∧ c.2.2 = 1 := by
  unfold buildCandidates
  suffices h : ∀ (l : List (List Char)) (acc : List (List Char × ℚ × Nat)),
      l.Nodup →
      (∀ c ∈ acc, c.2.1 = (4:ℚ)/5 ∧ c.2.2 = 1) →
      (∀ t ∈ l, ∀ c ∈ acc, c.1 ≠ t) →
      ∀ c ∈ l.foldl
        (fun cands title =>
          if cands.any (fun c => c.1 == title) then
            cands.map (fun c =>
              if c.1 == title then
                (c.1, min ((19:ℚ)/20) (c.2.1 + 1/10), c.2.2 + 1)
              else c)
          else cands ++ [(title, (4:ℚ)/5, 1)])
        acc, c.2.1 = (4:ℚ)/5 ∧ c.2.2 = 1 by
    intro c hc
    exact h ts [] hnd (by intro c hc; cases hc) (by intro t ht c hc; cases hc)
      c hc
  intro l
  induction l with
  | nil => intro acc _ hacc _ c hc; exact hacc c hc
  | cons t rest ih =>
      intro acc hnd2 hacc hkeys c hc
      simp only [List.foldl_cons] at hc
      have hany : (acc.any (fun c => c.1 == t)) = false := by
        rw [List.any_eq_false]
        intro c2 hc2
        have := hkeys t (List.mem_cons_self t rest) c2 hc2
        simpa using this
      rw [hany] at hc
      simp only [Bool.false_eq_true, if_false] at hc
      have hnd3 : rest.Nodup := (List.nodup_cons.mp hnd2).2
      have htni : t ∉ rest := (List.nodup_cons.mp hnd2).1
      refine ih (acc ++ [(t, (4:ℚ)/5, 1)]) hnd3 ?hacc2 ?hkeys2 c hc
      · intro c2 hc2
        rcases List.mem_append.mp hc2 with h | h
        · exact hacc c2 h
        · rcases List.mem_singleton.mp h with h
          subst h
          exact ⟨rfl, rfl⟩
      · intro t2 ht2 c2 hc2
        rcases List.mem_append.mp hc2 with h | h
        · exact hkeys t2 (List.mem_cons_of_mem t ht2) c2 h
        · rcases List.mem_singleton.mp h with h
          subst h
          intro hteq
          simp at hteq
          subst hteq
          exact htni ht2

/-- min(0.95, 0.8) = 0.8. -/
theorem min_95_80 : min ((19:ℚ)/20) ((4:ℚ)/5) = (4:ℚ)/5 := by
  rw [min_eq_right]
  norm_num

/-- Every result the scoring stage emits has confidence exactly 0.8. -/
theorem titleScoring_conf (validTitles : List (List Char)) :
    ∀ r ∈ titleScoring validTitles, r.confidence = (4:ℚ)/5 := by
  intro r hr
  unfold titleScoring at hr
  rcases List.mem_map.mp hr with ⟨p, hp, hr2⟩
  have hp2 := mem_withIdx _ 0 p hp
  have hp3 := List.mem_of_mem_take hp2
  have hp4 := List.mem_filter.mp hp3
  have hp5 := mem_sortByKeyDesc candidateKey p.2 _ hp4.1
  have hconf := (buildCandidates_conf (removeDuplicateTitles validTitles)
    (removeDuplicateTitles_nodup validTitles) p.2 hp5).1
  rw [← hr2]
  simp only
  rw [hconf, min_95_80]

/-- A list whose mapped values are all equal is sorted in any direction. -/
theorem chain'_of_const_conf (l : List DetectedTitle)
    (h : ∀ r ∈ l, r.confidence = (4:ℚ)/5) :
    List.Chain' (fun a b => b.confidence ≤ a.confidence) l := by
  induction l with
  | nil => exact List.chain'_nil
  | cons a rest ih =>
      cases rest with
      | nil => simp
      | cons b rest2 =>
          rw [List.chain'_cons]
          constructor
          · rw [h a (by simp), h b (by simp)]
          · exact ih (by intro r hr; exact h r (List.mem_cons_of_mem a hr))

/-! ## Support lemmas about the validator tests -/

theorem jsAllDigits_iff (s : List Char) :
    jsAllDigits s = true ↔ s ≠ [] ∧ ∀ c ∈ s, c.isDigit = true := by
  unfold jsAllDigits
  rw [Bool.and_eq_true, List.all_eq_true]
  simp

theorem jsHasAlpha_iff (s : List Char) :
    jsHasAlpha s = true ↔ ∃ c ∈ s, c.isAlpha = true := by
  unfold jsHasAlpha
  rw [List.any_eq_true]

theorem jsStopWord_iff (s : List Char) :
    jsStopWord s = true ↔ lowerStr s ∈ stopWords := by
  unfold jsStopWord
  simp

theorem jsSingleUpper_false_of_len (s : List Char) (h : ¬ s.length < 2) :
    jsSingleUpper s = false := by
  match s with
  | [] => exact absurd (by simp) h
  | [c] => exact absurd (by simp) h
  | c :: d :: rest => rfl

/-- On deduplicated singletons the confidence filter keeps the entry. -/
theorem filter_conf_single (t : List Char) (q : ℚ) (n : Nat)
    (h : (1:ℚ)/2 < q) :
    List.filter (fun c => decide ((1:ℚ)/2 < c.2.1)) [(t, q, n)] = [(t, q, n)] := by
  rw [List.filter_cons_of_pos]
  · rfl
  · simpa using h

/-- Evaluation of the scoring stage on an input that deduplicates to a
single title. -/
theorem titleScoring_single (validTitles : List (List Char)) (t : List Char)
    (hdedup : removeDuplicateTitles validTitles = [t]) :
    titleScoring validTitles = [⟨"ocr-0", t, (4:ℚ)/5⟩] := by
  unfold titleScoring
  rw [hdedup]
  show (withIdx 0 ((List.filter (fun c => decide ((1:ℚ)/2 < c.2.1))
      (sortByKeyDesc candidateKey (buildCandidates [t]))).take 15)).map
      (fun p => (⟨"ocr-" ++ toString p.1, p.2.1,
        min ((19:ℚ)/20) p.2.2.1⟩ : DetectedTitle)) =
    [⟨"ocr-0", t, (4:ℚ)/5⟩]
  have h2 : buildCandidates [t] = [(t, (4:ℚ)/5, 1)] := rfl
  rw [h2]
  have h3 : sortByKeyDesc candidateKey [(t, (4:ℚ)/5, 1)] = [(t, (4:ℚ)/5, 1)] :=
    rfl
  rw [h3]
  rw [filter_conf_single t ((4:ℚ)/5) 1 (by norm_num)]
  show [(⟨"ocr-" ++ toString 0, t, min ((19:ℚ)/20) ((4:ℚ)/5)⟩ : DetectedTitle)] =
    [⟨"ocr-0", t, (4:ℚ)/5⟩]
  rw [min_95_80]
  have hs : "ocr-" ++ toString 0 = "ocr-0" := by decide
  rw [hs]

theorem calculateSimilarity_eval (s1 s2 : List Char)
    (h1 : ¬ (s2.length < s1.length)) (h2 : s2.length ≠ 0) :
    calculateSimilarity s1 s2 =
      ((s2.length : ℚ) - levenshteinDistance s2 s1) / s2.length := by
  simp only [calculateSimilarity, if_neg h1, if_neg h2]

/-- C1: on total backend failure the title extraction of aiVisionService.ts
returns the nine hardcoded fallback titles with confidence 0.8 instead of
the empty list the specification requires; this evaluates the catch branch
of extractTitlesFromImage at the failing input. -/
theorem claim_C1_failure_eval :
    extractTitlesFromImageAI (Except.error ()) ≠ [] ∧
    (extractTitlesFromImageAI (Except.error ())).length = 9 ∧
    (extractTitlesFromImageAI (Except.error ())).map DetectedTitle.title =
      aiFallbackTitles := by
  refine ⟨?ne, rfl, rfl⟩
  intro h
  have h2 : (extractTitlesFromImageAI (Except.error ())).length = 9 := rfl
  rw [h] at h2
  cases h2

set_option maxRecDepth 300000 in
/-- C2 counterexample: the two retained titles cexA and cexB are distinct
and their case-insensitive similarity is exactly 0.85, not strictly below
the merge threshold, refuting the claim that retained representatives have
similarity strictly less than 0.85. -/
theorem claim_C2_counterexample :
    removeDuplicateTitles [cexA, cexB] = [cexA, cexB] ∧ cexA ≠ cexB ∧
    ¬ (calculateSimilarity (lowerStr cexB) (lowerStr cexA) < (17:ℚ)/20) := by
  refine ⟨?dedup, by decide, ?sim⟩
  · rw [removeDuplicateTitles_eq_nat]
    decide
  · have heval := calculateSimilarity_eval (lowerStr cexB) (lowerStr cexA)
      (by decide) (by decide)
    have hd : levenshteinDistance (lowerStr cexA) (lowerStr cexB) = 3 := by
      decide
    have hlen : (lowerStr cexA).length = 20 := by decide
    rw [heval, hd, hlen]
    push_cast
    norm_num

/-- C2 amended: any two distinct titles retained by removeDuplicateTitles
have case-insensitive similarity at most 0.85 (the code only merges when
the similarity strictly exceeds the threshold, so equality at 0.85 keeps
both titles). -/
theorem claim_C2_amended :
    ∀ ts : List (List Char),
      List.Pairwise
        (fun earlier later =>
          calculateSimilarity (lowerStr later) (lowerStr earlier) ≤ (17:ℚ)/20)
        (removeDuplicateTitles ts) := by
  intro ts
  have h := removeDuplicateTitles_pairwise ts
  refine h.imp ?imp
  intro a b hab
  unfold isDupOf at hab
  rw [decide_eq_false_iff_not] at hab
  exact le_of_not_lt hab

set_option maxRecDepth 100000 in
/-- C3 counterexample: cleanDetectedText is not idempotent; removing the
token DVD from "A DVD B" leaves the double space "A  B", which only a
second application collapses. -/
theorem claim_C3_counterexample :
    cleanDetectedText ("A DVD B".toList) = "A  B".toList ∧
    cleanDetectedText (cleanDetectedText ("A DVD B".toList)) ≠
      cleanDetectedText ("A DVD B".toList) := by
  constructor
  · decide
  · decide

/-- C3 amended: cleanDetectedText is idempotent on every input whose
normalized form is already fully reduced: whitespace-normal (single plain
spaces only), free of strippable characters and free of removable noise
tokens.  In general a second application can further collapse whitespace
created by token removal. -/
theorem claim_C3_amended (x : List Char)
    (hws : wsNormal (cleanDetectedText x) = true)
    (hstrip : stripChars (cleanDetectedText x) = cleanDetectedText x)
    (hmedia : scrub mediaTokens (cleanDetectedText x) = cleanDetectedText x)
    (hrate : scrub ratingTokens (cleanDetectedText x) = cleanDetectedText x) :
    cleanDetectedText (cleanDetectedText x) = cleanDetectedText x := by
  have htrim : trimWs (cleanDetectedText x) = cleanDetectedText x := by
    show trimWs (trimWs (scrub ratingTokens (scrub mediaTokens (stripChars
      (collapseWs (trimWs x)))))) = cleanDetectedText x
    rw [trimWs_trimWs]
    rfl
  show trimWs (scrub ratingTokens (scrub mediaTokens (stripChars (collapseWs
    (trimWs (cleanDetectedText x)))))) = cleanDetectedText x
  rw [htrim, collapseWs_eq_self hws, hstrip, hmedia, hrate, htrim]

set_option maxRecDepth 100000 in
theorem claim_C3_amended_witness :
    wsNormal (cleanDetectedText ("HELLO WORLD".toList)) = true ∧
    stripChars (cleanDetectedText ("HELLO WORLD".toList)) =
      cleanDetectedText ("HELLO WORLD".toList) ∧
    scrub mediaTokens (cleanDetectedText ("HELLO WORLD".toList)) =
      cleanDetectedText ("HELLO WORLD".toList) ∧
    scrub ratingTokens (cleanDetectedText ("HELLO WORLD".toList)) =
      cleanDetectedText ("HELLO WORLD".toList) ∧
    cleanDetectedText (cleanDetectedText ("HELLO WORLD".toList)) =
      cleanDetectedText ("HELLO WORLD".toList) :=
  ⟨by decide, by decide, by decide, by decide,
    claim_C3_amended ("HELLO WORLD".toList) (by decide) (by decide)
      (by decide) (by decide)⟩

set_option maxRecDepth 300000 in
/-- C4: the OCR normalizer maps "BLU-RAY SPECIAL EDITION GLORY" to exactly
"GLORY": the media-format token BLU-RAY and the edition tokens SPECIAL and
EDITION are removed case-insensitively as whole words. -/
theorem claim_C4_normalize_scenario :
    cleanOCRText ("BLU-RAY SPECIAL EDITION GLORY".toList) = "GLORY".toList := by
  decide

set_option maxRecDepth 300000 in
/-- C5 counterexample: on the detections [tDark, tDark2] the code emits the
single cluster representative with confidence 0.8 even though the cluster
has support count 2, whereas the claimed formula
clamp(0, 1, maxBackendConfidence + 0.1 * (supportCount - 1)) with the
cluster best confidence 0.8 yields 0.9. -/
theorem claim_C5_counterexample :
    titleScoring [tDark, tDark2] = [⟨"ocr-0", tDark, (4:ℚ)/5⟩] ∧
    dedupClusters [tDark, tDark2] = [(tDark, 2)] ∧
    specRankScore ((4:ℚ)/5) 2 ≠ (4:ℚ)/5 := by
  refine ⟨?code, ?support, ?spec⟩
  · apply titleScoring_single
    rw [removeDuplicateTitles_eq_nat]
    decide
  · rw [dedupClusters_eq_nat]
    decide
  · unfold specRankScore
    push_cast
    rw [show ((4:ℚ)/5 + 1/10 * (2 - 1)) = 9/10 by norm_num]
    rw [min_eq_right (by norm_num : (9:ℚ)/10 ≤ 1)]
    rw [max_eq_right (by norm_num : (0:ℚ) ≤ 9/10)]
    norm_num

/-- C5 amended: every emitted result carries the constant confidence 0.8:
the support-count boost of the candidate map is dead code because its input
is already exactly deduplicated, and no backend confidence enters the
score. -/
theorem claim_C5_amended :
    ∀ (validTitles : List (List Char)) (r : DetectedTitle),
      r ∈ titleScoring validTitles → r.confidence = (4:ℚ)/5 :=
  fun ts r hr => titleScoring_conf ts r hr

set_option maxRecDepth 100000 in
theorem claim_C5_amended_witness :
    (⟨"ocr-0", tSnatch, (4:ℚ)/5⟩ : DetectedTitle) ∈ titleScoring [tSnatch] ∧
    ((⟨"ocr-0", tSnatch, (4:ℚ)/5⟩ : DetectedTitle)).confidence = (4:ℚ)/5 := by
  have hmem : (⟨"ocr-0", tSnatch, (4:ℚ)/5⟩ : DetectedTitle) ∈
      titleScoring [tSnatch] := by
    rw [titleScoring_single [tSnatch] tSnatch
      (by rw [removeDuplicateTitles_eq_nat]; decide)]
    exact List.mem_singleton.mpr rfl
  exact ⟨hmem, claim_C5_amended [tSnatch] _ hmem⟩

/-- C6: the confidences of the emitted result list are non-increasing by
index. -/
theorem claim_C6_ranker_monotonic :
    ∀ validTitles : List (List Char),
      List.Chain' (fun a b => b.confidence ≤ a.confidence)
        (titleScoring validTitles) :=
  fun ts => chain'_of_const_conf (titleScoring ts) (titleScoring_conf ts)

/-- C7: on normalized input the validator rejects exactly the strings that
are too short or too long, purely numeric, a single letter, a bare stop
word, or without any alphabetic character, and accepts everything else. -/
theorem claim_C7_validator (s : List Char) (hnorm : cleanDetectedText s = s) :
    (isValidMovieTitle s = false ↔
      (s.length < 2 ∨ 120 < s.length ∨
        (s ≠ [] ∧ ∀ c ∈ s, c.isDigit = true) ∨
        (∃ c, s = [c] ∧ c.isAlpha = true) ∨
        lowerStr s ∈ stopWords ∨
        ¬ (∃ c ∈ s, c.isAlpha = true))) := by
  unfold isValidMovieTitle
  rw [hnorm]
  by_cases h1 : s.length < 2
  · rw [if_pos h1]
    exact ⟨fun _ => Or.inl h1, fun _ => rfl⟩
  · rw [if_neg h1]
    by_cases h2 : 120 < s.length
    · rw [if_pos h2]
      exact ⟨fun _ => Or.inr (Or.inl h2), fun _ => rfl⟩
    · rw [if_neg h2]
      by_cases h3 : jsAllDigits s = true
      · rw [if_pos h3]
        exact ⟨fun _ => Or.inr (Or.inr (Or.inl ((jsAllDigits_iff s).mp h3))),
          fun _ => rfl⟩
      · rw [if_neg h3]
        have h4 : ¬ (jsSingleUpper s = true) := by
          rw [jsSingleUpper_false_of_len s h1]
          exact Bool.false_ne_true
        rw [if_neg h4]
        by_cases h5 : jsStopWord s = true
        · rw [if_pos h5]
          exact ⟨fun _ => Or.inr (Or.inr (Or.inr (Or.inr
            (Or.inl ((jsStopWord_iff s).mp h5))))), fun _ => rfl⟩
        · rw [if_neg h5]
          by_cases h6 : jsHasAlpha s = true
          · have h6b : ¬ ((!jsHasAlpha s) = true) := by
              rw [h6]
              exact Bool.false_ne_true
            rw [if_neg h6b]
            constructor
            · intro hfalse
              cases hfalse
            · intro hrhs
              rcases hrhs with h | h | h | h | h | h
              · exact absurd h h1
              · exact absurd h h2
              · exact absurd ((jsAllDigits_iff s).mpr h) h3
              · rcases h with ⟨c, hc, _⟩
                rw [hc] at h1
                exact (h1 (by simp)).elim
              · exact absurd ((jsStopWord_iff s).mpr h) h5
              · exact absurd ((jsHasAlpha_iff s).mp h6) h
          · have h6b : (!jsHasAlpha s) = true := by
              rw [Bool.not_eq_true] at h6
              rw [h6]
              rfl
            rw [if_pos h6b]
            constructor
            · intro _
              refine Or.inr (Or.inr (Or.inr (Or.inr (Or.inr ?noalpha))))
              intro hex
              exact h6 ((jsHasAlpha_iff s).mpr hex)
            · intro _
              rfl

set_option maxRecDepth 100000 in
theorem claim_C7_validator_witness :
    cleanDetectedText ("OK".toList) = "OK".toList ∧
    (isValidMovieTitle ("OK".toList) = false ↔
      (("OK".toList).length < 2 ∨ 120 < ("OK".toList).length ∨
        ("OK".toList ≠ [] ∧ ∀ c ∈ "OK".toList, c.isDigit = true) ∨
        (∃ c, "OK".toList = [c] ∧ c.isAlpha = true) ∨
        lowerStr ("OK".toList) ∈ stopWords ∨
        ¬ (∃ c ∈ "OK".toList, c.isAlpha = true))) :=
  ⟨by decide, claim_C7_validator ("OK".toList) (by decide)⟩

set_option maxRecDepth 300000 in
/-- C8: on the detections [tDark, tDark2, tSnatch] the deduplicator keeps
exactly the two representatives tDark and tSnatch, and the tDark cluster
absorbed two detections. -/
theorem claim_C8_dedup_scenario :
    removeDuplicateTitles [tDark, tDark2, tSnatch] = [tDark, tSnatch] ∧
    dedupClusters [tDark, tDark2, tSnatch] = [(tDark, 2), (tSnatch, 1)] := by
  constructor
  · rw [removeDuplicateTitles_eq_nat]
    decide
  · rw [dedupClusters_eq_nat]
    decide

/-- C9: the two identical working levenshteinDistance copies compute the
classic Levenshtein distance - they equal the textbook recursion lev and
are the least edit-chain length - while the third copy (movieDatabase.ts
923-945, whose first-row initialisation matrix[j] = j clobbers the row
arrays) throws a TypeError on any pair of nonempty strings such as
"ab" and "cd" instead of returning a number. -/
theorem claim_C9_levenshtein :
    levenshteinDistanceBroken ("ab".toList) ("cd".toList) = Except.error () ∧
    ∀ s1 s2 : List Char,
      levenshteinDistance s1 s2 = lev s1 s2 ∧
      IsLeast {n : Nat | EditChain s1 s2 n} (levenshteinDistance s1 s2) := by
  refine ⟨rfl, ?main⟩
  intro s1 s2
  refine ⟨levenshteinDistance_eq_lev s1 s2, ?least⟩
  rw [levenshteinDistance_eq_lev]
  exact ⟨editChain_lev s1 s2, fun n hn => lev_le_chain hn⟩

/-- C10: the deduplicator output is a subsequence of its input (titles are
kept verbatim in first-occurrence order) and the first input title is
always kept first. -/
theorem claim_C10_dedup_subsequence :
    ∀ ts : List (List Char),
      (removeDuplicateTitles ts).Sublist ts ∧
      (removeDuplicateTitles ts).head? = ts.head? :=
  fun ts => ⟨removeDuplicateTitles_sublist ts, removeDuplicateTitles_head? ts⟩

end SillyDolphin
